import Mathlib

/-!
Verification of the Filename Synthesis and Deduplication Engine.

Shallow embedding of the filename-optimization core of `singlefile-archiver`
(`src/singlefile_archiver/commands/optimize.py` and
`src/singlefile_archiver/utils/paths.py`).

Python strings are modelled as `List Char`; Python `bytes` as `List Nat`
(each element a byte value).  Python `int` arguments that can go negative
(`max_bytes - 3` and friends) are modelled as `Int`.  External library
functions whose behaviour is a large Unicode table (`str.lower`,
`unicodedata.category`/`name`, `hash`, `datetime.now().strftime`) are taken as
explicit parameters of the embedding, and theorems quantify over them.
-/

/-- Python strings are sequences of Unicode scalar values. -/
abbrev Str := List Char

/-- Number of bytes in the UTF-8 encoding of one scalar value
(`len(chr(n).encode('utf-8'))`). -/
def utf8Size (c : Char) : Nat :=
  if c.toNat < 0x80 then 1
  else if c.toNat < 0x800 then 2
  else if c.toNat < 0x10000 then 3
  else 4

/-- The UTF-8 encoding of one scalar value, as its list of byte values. -/
def encodeChar (c : Char) : List Nat :=
  if c.toNat < 0x80 then [c.toNat]
  else if c.toNat < 0x800 then
    [0xC0 + c.toNat / 64, 0x80 + c.toNat % 64]
  else if c.toNat < 0x10000 then
    [0xE0 + c.toNat / 4096, 0x80 + c.toNat / 64 % 64, 0x80 + c.toNat % 64]
  else
    [0xF0 + c.toNat / 262144, 0x80 + c.toNat / 4096 % 64,
     0x80 + c.toNat / 64 % 64, 0x80 + c.toNat % 64]

/-- `text.encode('utf-8')` : the UTF-8 byte sequence of a string. -/
def encodeStr (s : Str) : List Nat := (s.map encodeChar).flatten

/-- `len(text.encode('utf-8'))` : the UTF-8 byte length of a string. -/
def utf8Len (s : Str) : Nat := (encodeStr s).length

/-- Is `b` a UTF-8 continuation byte (`0x80..0xBF`)? -/
def contB (b : Nat) : Prop := 0x80 ≤ b ∧ b ≤ 0xBF

instance (b : Nat) : Decidable (contB b) := by unfold contB; infer_instance

/-- One step of strict UTF-8 decoding: given a leading byte and the bytes
after it, classify the leading byte, check the continuation bytes exactly as
CPython's `bytes.decode('utf-8')` does (rejecting truncated sequences,
overlong forms, surrogates, values beyond U+10FFFF and stray continuation
bytes), and return the decoded scalar value together with the bytes that
remain. -/
def utf8Step (b : Nat) (rest : List Nat) : Option (Nat × List Nat) :=
  if b < 0x80 then some (b, rest)
  else if b < 0xC2 then none
  else if b ≤ 0xDF then
    match rest with
    | c :: r => if contB c then some ((b - 0xC0) * 64 + (c - 0x80), r) else none
    | [] => none
  else if b ≤ 0xEF then
    match rest with
    | c :: d :: r =>
      if (if b = 0xE0 then 0xA0 ≤ c ∧ c ≤ 0xBF
          else if b = 0xED then 0x80 ≤ c ∧ c ≤ 0x9F
          else contB c) ∧ contB d then
        some ((b - 0xE0) * 4096 + (c - 0x80) * 64 + (d - 0x80), r)
      else none
    | _ => none
  else if b ≤ 0xF4 then
    match rest with
    | c :: d :: e :: r =>
      if (if b = 0xF0 then 0x90 ≤ c ∧ c ≤ 0xBF
          else if b = 0xF4 then 0x80 ≤ c ∧ c ≤ 0x8F
          else contB c) ∧ contB d ∧ contB e then
        some ((b - 0xF0) * 262144 + (c - 0x80) * 4096 + (d - 0x80) * 64 + (e - 0x80), r)
      else none
    | _ => none
  else none

/-- Strict UTF-8 decoding loop; `fuel` is structural fuel (any value at least
the list length gives the true result, see `decodeGo_fuel`). -/
def decodeGo : Nat → List Nat → Option Str
  | _, [] => some []
  | 0, _ :: _ => none
  | fuel + 1, b :: rest =>
    match utf8Step b rest with
    | some (n, r) => (decodeGo fuel r).map (Char.ofNat n :: ·)
    | none => none

/-- Strict UTF-8 decoding, mirroring CPython's `bytes.decode('utf-8')`:
returns `none` exactly when CPython raises `UnicodeDecodeError`. -/
def decodeUtf8 (bs : List Nat) : Option Str := decodeGo bs.length bs

/-- The `while len(truncated) > 0: try decode / except: drop last byte` loop of
`_truncate_by_bytes`, with the list length as (exact) structural fuel. -/
def dropToValidGo : Nat → List Nat → List Nat
  | 0, _ => []
  | n + 1, bs =>
    if bs = [] then []
    else if (decodeUtf8 bs).isSome then bs
    else dropToValidGo n bs.dropLast

/-- Back up to the longest decodable prefix of a byte string. -/
def dropToValid (bs : List Nat) : List Nat := dropToValidGo bs.length bs

/-- Model of `_truncate_by_bytes(text, max_bytes)`
(`commands/optimize.py`, lines 281–308): slice the UTF-8 encoding at
`max_bytes` bytes, then back up byte-by-byte until the slice decodes. -/
def truncateByBytes (text : Str) (maxBytes : Int) : Str :=
  if maxBytes ≤ 0 then []
  else
    let encoded := encodeStr text
    if (encoded.length : Int) ≤ maxBytes then text
    else ((decodeUtf8 (dropToValid (encoded.take maxBytes.toNat))).getD [])

/-- Written from the spec's words ("the longest prefix of `text` whose UTF-8
encoding has length at most `max_bytes`"): greedily take whole characters
while they fit the byte budget.  Compared against `truncateByBytes` in C5. -/
def longestUtf8Prefix (text : Str) (maxBytes : Nat) : Str :=
  match text with
  | [] => []
  | c :: rest =>
    if utf8Size c ≤ maxBytes then c :: longestUtf8Prefix rest (maxBytes - utf8Size c)
    else []

/-! ### UTF-8 roundtrip lemmas -/

theorem encodeChar_length (c : Char) : (encodeChar c).length = utf8Size c := by
  unfold encodeChar utf8Size
  split_ifs <;> rfl

theorem utf8Size_pos (c : Char) : 1 ≤ utf8Size c := by
  unfold utf8Size; split_ifs <;> omega

theorem char_ofNat_toNat (c : Char) : Char.ofNat c.toNat = c := by
  have hval : c.toNat.isValidChar := c.valid
  apply Char.ext
  show (Char.ofNat c.toNat).val = c.val
  unfold Char.ofNat
  rw [dif_pos hval]
  rfl

theorem utf8Step_length {b n : Nat} {rest r : List Nat}
    (h : utf8Step b rest = some (n, r)) : r.length ≤ rest.length := by
  unfold utf8Step at h
  rcases rest with _ | ⟨c, rest⟩
  · dsimp only at h
    split_ifs at h
    simp_all
  · rcases rest with _ | ⟨d, rest⟩
    · dsimp only at h
      split_ifs at h <;> simp_all
    · rcases rest with _ | ⟨e, rest⟩
      · dsimp only at h
        split_ifs at h <;> simp_all
      · dsimp only at h
        split_ifs at h <;> simp_all <;> try omega

theorem decodeGo_nil (f : Nat) : decodeGo f [] = some [] := by
  cases f <;> rfl

theorem decodeGo_cons (f b : Nat) (rest : List Nat) :
    decodeGo (f + 1) (b :: rest) =
      match utf8Step b rest with
      | some (n, r) => (decodeGo f r).map (Char.ofNat n :: ·)
      | none => none := rfl

theorem decodeGo_fuel {f1 f2 : Nat} {bs : List Nat} (h1 : bs.length ≤ f1)
    (h2 : bs.length ≤ f2) : decodeGo f1 bs = decodeGo f2 bs := by
  induction f1 generalizing bs f2 with
  | zero =>
    have hbs : bs = [] := by
      cases bs with
      | nil => rfl
      | cons x xs => simp at h1
    subst hbs
    rw [decodeGo_nil, decodeGo_nil]
  | succ f ih =>
    cases bs with
    | nil => rw [decodeGo_nil, decodeGo_nil]
    | cons b rest =>
      cases f2 with
      | zero => simp at h2
      | succ g2 =>
        rw [decodeGo_cons, decodeGo_cons]
        cases hstep : utf8Step b rest with
        | none => rfl
        | some pr =>
          obtain ⟨n, r⟩ := pr
          have hr := utf8Step_length hstep
          have hf : r.length ≤ f := by simp at h1; omega
          have hg : r.length ≤ g2 := by simp at h2; omega
          simp only []
          rw [@ih g2 r hf hg]

theorem decodeUtf8_encodeChar_append (c : Char) (bs : List Nat) :
    decodeUtf8 (encodeChar c ++ bs) = (decodeUtf8 bs).map (c :: ·) := by
  have hv : c.toNat < 0xD800 ∨ (0xDFFF < c.toNat ∧ c.toNat < 0x110000) := c.valid
  have hone : Char.ofNat c.toNat = c := char_ofNat_toNat c
  by_cases h1 : c.toNat < 0x80
  · rw [encodeChar, if_pos h1]
    have hstep : utf8Step c.toNat bs = some (c.toNat, bs) := by
      unfold utf8Step; rw [if_pos h1]
    show decodeGo (c.toNat :: bs).length (c.toNat :: bs) = _
    rw [List.length_cons, decodeGo_cons, hstep]
    dsimp only
    rw [hone]
    rfl
  · by_cases h2 : c.toNat < 0x800
    · rw [encodeChar, if_neg h1, if_pos h2]
      have hstep : utf8Step (0xC0 + c.toNat / 64) ((0x80 + c.toNat % 64) :: bs) =
          some (c.toNat, bs) := by
        unfold utf8Step
        rw [if_neg (by omega), if_neg (by omega),
          if_pos (by omega : (0xC0 + c.toNat / 64) ≤ 0xDF)]
        dsimp only
        rw [if_pos (show contB (0x80 + c.toNat % 64) by unfold contB; omega)]
        have hn : (0xC0 + c.toNat / 64 - 0xC0) * 64 + (0x80 + c.toNat % 64 - 0x80) =
            c.toNat := by omega
        rw [hn]
      show decodeGo ((0xC0 + c.toNat / 64) :: (0x80 + c.toNat % 64) :: bs).length
        ((0xC0 + c.toNat / 64) :: (0x80 + c.toNat % 64) :: bs) = _
      rw [List.length_cons, List.length_cons, decodeGo_cons, hstep]
      dsimp only
      rw [@decodeGo_fuel (bs.length + 1) bs.length bs (by omega) le_rfl, hone]
      rfl
    · by_cases h3 : c.toNat < 0x10000
      · rw [encodeChar, if_neg h1, if_neg h2, if_pos h3]
        have hstep : utf8Step (0xE0 + c.toNat / 4096)
            ((0x80 + c.toNat / 64 % 64) :: (0x80 + c.toNat % 64) :: bs) =
            some (c.toNat, bs) := by
          unfold utf8Step
          rw [if_neg (by omega), if_neg (by omega), if_neg (by omega),
            if_pos (by omega : (0xE0 + c.toNat / 4096) ≤ 0xEF)]
          dsimp only
          rw [if_pos ?cond3]
          case cond3 =>
            refine ⟨?_, by unfold contB; omega⟩
            split_ifs with hE0 hED
            · omega
            · omega
            · unfold contB; omega
          have hn : (0xE0 + c.toNat / 4096 - 0xE0) * 4096 +
              (0x80 + c.toNat / 64 % 64 - 0x80) * 64 +
              (0x80 + c.toNat % 64 - 0x80) = c.toNat := by omega
          rw [hn]
        show decodeGo ((0xE0 + c.toNat / 4096) :: (0x80 + c.toNat / 64 % 64) ::
          (0x80 + c.toNat % 64) :: bs).length ((0xE0 + c.toNat / 4096) ::
          (0x80 + c.toNat / 64 % 64) :: (0x80 + c.toNat % 64) :: bs) = _
        rw [List.length_cons, List.length_cons, List.length_cons, decodeGo_cons, hstep]
        dsimp only
        rw [@decodeGo_fuel (bs.length + 1 + 1) bs.length bs (by omega) le_rfl, hone]
        rfl
      · rw [encodeChar, if_neg h1, if_neg h2, if_neg h3]
        have hstep : utf8Step (0xF0 + c.toNat / 262144)
            ((0x80 + c.toNat / 4096 % 64) :: (0x80 + c.toNat / 64 % 64) ::
              (0x80 + c.toNat % 64) :: bs) = some (c.toNat, bs) := by
          unfold utf8Step
          rw [if_neg (by omega), if_neg (by omega), if_neg (by omega), if_neg (by omega),
            if_pos (by omega : (0xF0 + c.toNat / 262144) ≤ 0xF4)]
          dsimp only
          rw [if_pos ?cond4]
          case cond4 =>
            refine ⟨?_, by unfold contB; omega, by unfold contB; omega⟩
            split_ifs with hF0 hF4
            · omega
            · omega
            · unfold contB; omega
          have hn : (0xF0 + c.toNat / 262144 - 0xF0) * 262144 +
              (0x80 + c.toNat / 4096 % 64 - 0x80) * 4096 +
              (0x80 + c.toNat / 64 % 64 - 0x80) * 64 +
              (0x80 + c.toNat % 64 - 0x80) = c.toNat := by omega
          rw [hn]
        show decodeGo ((0xF0 + c.toNat / 262144) :: (0x80 + c.toNat / 4096 % 64) ::
          (0x80 + c.toNat / 64 % 64) :: (0x80 + c.toNat % 64) :: bs).length
          ((0xF0 + c.toNat / 262144) :: (0x80 + c.toNat / 4096 % 64) ::
          (0x80 + c.toNat / 64 % 64) :: (0x80 + c.toNat % 64) :: bs) = _
        rw [List.length_cons, List.length_cons, List.length_cons, List.length_cons,
          decodeGo_cons, hstep]
        dsimp only
        rw [@decodeGo_fuel (bs.length + 1 + 1 + 1) bs.length bs (by omega) le_rfl, hone]
        rfl

theorem encodeStr_cons (c : Char) (s : Str) :
    encodeStr (c :: s) = encodeChar c ++ encodeStr s := rfl

theorem encodeStr_append (s t : Str) :
    encodeStr (s ++ t) = encodeStr s ++ encodeStr t := by
  simp [encodeStr]

theorem utf8Len_nil : utf8Len [] = 0 := rfl

theorem utf8Len_cons (c : Char) (s : Str) :
    utf8Len (c :: s) = utf8Size c + utf8Len s := by
  simp [utf8Len, encodeStr_cons, encodeChar_length]

theorem utf8Len_append (s t : Str) : utf8Len (s ++ t) = utf8Len s + utf8Len t := by
  simp [utf8Len, encodeStr_append]

theorem decodeUtf8_encodeStr_append (s : Str) (bs : List Nat) :
    decodeUtf8 (encodeStr s ++ bs) = (decodeUtf8 bs).map (s ++ ·) := by
  induction s with
  | nil =>
    show decodeUtf8 ([] ++ bs) = _
    rw [List.nil_append]
    cases decodeUtf8 bs <;> simp
  | cons c s ih =>
    rw [encodeStr_cons, List.append_assoc, decodeUtf8_encodeChar_append, ih]
    cases decodeUtf8 bs <;> simp

theorem decodeUtf8_encodeStr (s : Str) : decodeUtf8 (encodeStr s) = some s := by
  have h := decodeUtf8_encodeStr_append s []
  rw [List.append_nil] at h
  rw [h]
  show (some ([] : Str)).map (s ++ ·) = _
  simp

theorem utf8Step_none_two (b : Nat) (hb1 : 0xC2 ≤ b) (hb2 : b ≤ 0xDF) :
    utf8Step b [] = none := by
  unfold utf8Step
  rw [if_neg (by omega), if_neg (by omega), if_pos hb2]

theorem utf8Step_none_three (b : Nat) (rest : List Nat) (hb1 : 0xE0 ≤ b)
    (hb2 : b ≤ 0xEF) (hr : rest.length ≤ 1) : utf8Step b rest = none := by
  unfold utf8Step
  rw [if_neg (by omega), if_neg (by omega), if_neg (by omega), if_pos hb2]
  rcases rest with _ | ⟨c, rest⟩
  · rfl
  · rcases rest with _ | ⟨d, rest⟩
    · rfl
    · simp at hr

theorem utf8Step_none_four (b : Nat) (rest : List Nat) (hb1 : 0xF0 ≤ b)
    (hb2 : b ≤ 0xF4) (hr : rest.length ≤ 2) : utf8Step b rest = none := by
  unfold utf8Step
  rw [if_neg (by omega), if_neg (by omega), if_neg (by omega), if_neg (by omega), if_pos hb2]
  rcases rest with _ | ⟨c, rest⟩
  · rfl
  · rcases rest with _ | ⟨d, rest⟩
    · rfl
    · rcases rest with _ | ⟨e, rest⟩
      · rfl
      · simp at hr

theorem decodeUtf8_cons_none {b : Nat} {rest : List Nat}
    (h : utf8Step b rest = none) : decodeUtf8 (b :: rest) = none := by
  show decodeGo (b :: rest).length (b :: rest) = none
  rw [List.length_cons, decodeGo_cons, h]

theorem decodeUtf8_encodeChar_take (c : Char) (k : Nat) (hk1 : 1 ≤ k)
    (hk2 : k < utf8Size c) : decodeUtf8 ((encodeChar c).take k) = none := by
  have hv : c.toNat < 0xD800 ∨ (0xDFFF < c.toNat ∧ c.toNat < 0x110000) := c.valid
  by_cases h1 : c.toNat < 0x80
  · exfalso
    have : utf8Size c = 1 := by unfold utf8Size; rw [if_pos h1]
    omega
  · by_cases h2 : c.toNat < 0x800
    · have hsz : utf8Size c = 2 := by unfold utf8Size; rw [if_neg h1, if_pos h2]
      have hk : k = 1 := by omega
      subst hk
      rw [encodeChar, if_neg h1, if_pos h2]
      show decodeUtf8 [0xC0 + c.toNat / 64] = none
      exact decodeUtf8_cons_none (utf8Step_none_two _ (by omega) (by omega))
    · by_cases h3 : c.toNat < 0x10000
      · have hsz : utf8Size c = 3 := by
          unfold utf8Size; rw [if_neg h1, if_neg h2, if_pos h3]
        rw [encodeChar, if_neg h1, if_neg h2, if_pos h3]
        have hk : k = 1 ∨ k = 2 := by omega
        rcases hk with hk | hk <;> subst hk
        · show decodeUtf8 [0xE0 + c.toNat / 4096] = none
          exact decodeUtf8_cons_none (utf8Step_none_three _ _ (by omega) (by omega) (by simp))
        · show decodeUtf8 [0xE0 + c.toNat / 4096, 0x80 + c.toNat / 64 % 64] = none
          exact decodeUtf8_cons_none (utf8Step_none_three _ _ (by omega) (by omega) (by simp))
      · have hsz : utf8Size c = 4 := by
          unfold utf8Size; rw [if_neg h1, if_neg h2, if_neg h3]
        rw [encodeChar, if_neg h1, if_neg h2, if_neg h3]
        have hk : k = 1 ∨ k = 2 ∨ k = 3 := by omega
        rcases hk with hk | hk | hk <;> subst hk
        · show decodeUtf8 [0xF0 + c.toNat / 262144] = none
          exact decodeUtf8_cons_none (utf8Step_none_four _ _ (by omega) (by omega) (by simp))
        · show decodeUtf8 [0xF0 + c.toNat / 262144, 0x80 + c.toNat / 4096 % 64] = none
          exact decodeUtf8_cons_none (utf8Step_none_four _ _ (by omega) (by omega) (by simp))
        · show decodeUtf8 [0xF0 + c.toNat / 262144, 0x80 + c.toNat / 4096 % 64,
            0x80 + c.toNat / 64 % 64] = none
          exact decodeUtf8_cons_none (utf8Step_none_four _ _ (by omega) (by omega) (by simp))

theorem dropToValidGo_nil (f : Nat) : dropToValidGo f [] = [] := by
  cases f <;> rfl

theorem dropToValid_of_isSome {bs : List Nat} (h : (decodeUtf8 bs).isSome) :
    dropToValid bs = bs := by
  cases bs with
  | nil => rfl
  | cons b rest =>
    show dropToValidGo (rest.length + 1) (b :: rest) = b :: rest
    unfold dropToValidGo
    rw [if_neg (by simp), if_pos h]

theorem dropToValid_append (xs ys : List Nat) (hx : (decodeUtf8 xs).isSome)
    (hy : ∀ k, 1 ≤ k → k ≤ ys.length → decodeUtf8 (xs ++ ys.take k) = none) :
    dropToValid (xs ++ ys) = xs := by
  induction ys using List.reverseRecOn with
  | nil => rw [List.append_nil]; exact dropToValid_of_isSome hx
  | append_singleton ys y ih =>
    have hne : xs ++ (ys ++ [y]) ≠ [] := by simp
    have hfull : decodeUtf8 (xs ++ (ys ++ [y])) = none := by
      have := hy (ys.length + 1) (by omega) (by simp)
      rwa [List.take_of_length_le (by simp)] at this
    rcases hcons : xs ++ (ys ++ [y]) with _ | ⟨b, rest⟩
    · exact absurd hcons hne
    · show dropToValidGo (b :: rest).length (b :: rest) = xs
      rw [List.length_cons]
      unfold dropToValidGo
      rw [if_neg (by simp), if_neg (by rw [← hcons, hfull]; simp)]
      have hdrop : (b :: rest).dropLast = xs ++ ys := by
        rw [← hcons, ← List.append_assoc, List.dropLast_concat]
      have hlen : rest.length = (xs ++ ys).length := by
        have : (b :: rest).length = (xs ++ (ys ++ [y])).length := by rw [hcons]
        simp at this ⊢
        omega
      rw [hdrop, hlen]
      exact ih fun k h1 h2 => by
        have := hy k h1 (by simp; omega)
        rwa [List.take_append_of_le_length h2] at this

theorem longestUtf8Prefix_nil (m : Nat) : longestUtf8Prefix [] m = [] := rfl

theorem longestUtf8Prefix_cons (c : Char) (s : Str) (m : Nat) :
    longestUtf8Prefix (c :: s) m =
      if utf8Size c ≤ m then c :: longestUtf8Prefix s (m - utf8Size c) else [] := rfl

theorem take_encodeStr_decomp (s : Str) (m : Nat) :
    ∃ p, (encodeStr s).take m = encodeStr (longestUtf8Prefix s m) ++ p ∧
      ∀ k, 1 ≤ k → k ≤ p.length → decodeUtf8 (p.take k) = none := by
  induction s generalizing m with
  | nil =>
    refine ⟨[], by simp [encodeStr, longestUtf8Prefix_nil], ?_⟩
    intro k h1 h2
    simp at h2
    omega
  | cons c s ih =>
    by_cases h : utf8Size c ≤ m
    · obtain ⟨p, hp, hnone⟩ := ih (m - utf8Size c)
      refine ⟨p, ?_, hnone⟩
      rw [encodeStr_cons, longestUtf8Prefix_cons, if_pos h, encodeStr_cons,
        List.append_assoc, ← hp]
      have hm : m = (encodeChar c).length + (m - utf8Size c) := by
        rw [encodeChar_length]; omega
      conv_lhs => rw [hm]
      rw [List.take_append]
    · refine ⟨(encodeChar c).take m, ?_, ?_⟩
      · rw [encodeStr_cons, longestUtf8Prefix_cons, if_neg h]
        show _ = [] ++ _
        rw [List.nil_append]
        exact List.take_append_of_le_length (by rw [encodeChar_length]; omega)
      · intro k hk1 hk2
        have hkm : k ≤ m := le_trans hk2 (by simp)
        have htt : ((encodeChar c).take m).take k = (encodeChar c).take k := by
          rw [List.take_take, min_eq_left hkm]
        rw [htt]
        apply decodeUtf8_encodeChar_take c k hk1
        have : k ≤ (encodeChar c).length := le_trans hk2 (by simp [List.length_take])
        rw [encodeChar_length] at this
        omega

theorem dropToValid_take_encodeStr (s : Str) (m : Nat) :
    dropToValid ((encodeStr s).take m) = encodeStr (longestUtf8Prefix s m) := by
  obtain ⟨p, hp, hnone⟩ := take_encodeStr_decomp s m
  rw [hp]
  apply dropToValid_append
  · rw [decodeUtf8_encodeStr]; rfl
  · intro k h1 h2
    rw [decodeUtf8_encodeStr_append, hnone k h1 h2]
    rfl

theorem longestUtf8Prefix_of_le {s : Str} {m : Nat} (h : utf8Len s ≤ m) :
    longestUtf8Prefix s m = s := by
  induction s generalizing m with
  | nil => rfl
  | cons c s ih =>
    rw [utf8Len_cons] at h
    rw [longestUtf8Prefix_cons, if_pos (by omega)]
    rw [ih (by omega)]

theorem longestUtf8Prefix_zero (s : Str) : longestUtf8Prefix s 0 = [] := by
  cases s with
  | nil => rfl
  | cons c s =>
    rw [longestUtf8Prefix_cons, if_neg]
    have := utf8Size_pos c
    omega

/-- The central `_truncate_by_bytes` characterization: the byte-slice /
decode-backoff loop computes exactly the greedy longest whole-character
prefix that fits the (clamped) byte budget. -/
theorem truncateByBytes_eq (text : Str) (m : Int) :
    truncateByBytes text m = longestUtf8Prefix text (max m 0).toNat := by
  unfold truncateByBytes
  by_cases h0 : m ≤ 0
  · rw [if_pos h0]
    have hmx : (max m 0).toNat = 0 := by
      rw [max_eq_right h0]; rfl
    rw [hmx, longestUtf8Prefix_zero]
  · rw [if_neg h0]
    have hmx : (max m 0).toNat = m.toNat := by
      rw [max_eq_left (by omega)]
    by_cases h1 : ((encodeStr text).length : Int) ≤ m
    · simp only [if_pos h1]
      rw [hmx]
      symm
      apply longestUtf8Prefix_of_le
      show (encodeStr text).length ≤ m.toNat
      omega
    · simp only [if_neg h1]
      rw [dropToValid_take_encodeStr, decodeUtf8_encodeStr, hmx]
      rfl

theorem utf8Len_longestUtf8Prefix_le (s : Str) (m : Nat) :
    utf8Len (longestUtf8Prefix s m) ≤ m := by
  induction s generalizing m with
  | nil => simp [longestUtf8Prefix_nil, utf8Len_nil]
  | cons c s ih =>
    rw [longestUtf8Prefix_cons]
    split_ifs with h
    · rw [utf8Len_cons]
      have := ih (m - utf8Size c)
      omega
    · simp [utf8Len_nil]

theorem longestUtf8Prefix_isPrefix (s : Str) (m : Nat) :
    longestUtf8Prefix s m <+: s := by
  induction s generalizing m with
  | nil => simp [longestUtf8Prefix_nil]
  | cons c s ih =>
    rw [longestUtf8Prefix_cons]
    split_ifs with h
    · exact List.cons_prefix_cons.mpr ⟨rfl, ih (m - utf8Size c)⟩
    · exact List.nil_prefix

theorem longestUtf8Prefix_longest (s : Str) (m k : Nat)
    (h : utf8Len (s.take k) ≤ m) : s.take k <+: longestUtf8Prefix s m := by
  induction s generalizing m k with
  | nil => simp
  | cons c s ih =>
    cases k with
    | zero => simp
    | succ k =>
      rw [List.take_succ_cons] at h ⊢
      rw [utf8Len_cons] at h
      have hc : utf8Size c ≤ m := by
        have := utf8Len (s.take k)
        omega
      rw [longestUtf8Prefix_cons, if_pos hc]
      exact List.cons_prefix_cons.mpr ⟨rfl, ih (m - utf8Size c) k (by omega)⟩

/-- Claim C5: For every string `text` and every integer `max_bytes`,
`_truncate_by_bytes(text, max_bytes)` returns the longest prefix of `text`
whose UTF-8 encoding has length at most `max(max_bytes, 0)`: it equals the
greedy whole-character prefix (`longestUtf8Prefix`, written from the spec's
words), it is a prefix of `text`, its UTF-8 length is within the clamped
budget, and every prefix of `text` that fits the budget is a prefix of it.
Being a list of scalar values, the result is in particular valid, decodable
Unicode and never ends inside a multi-byte UTF-8 sequence. -/
theorem C5_truncate_by_bytes_characterization (text : Str) (m : Int) :
    truncateByBytes text m = longestUtf8Prefix text (max m 0).toNat ∧
    truncateByBytes text m <+: text ∧
    (utf8Len (truncateByBytes text m) : Int) ≤ max m 0 ∧
    ∀ k : Nat, (utf8Len (text.take k) : Int) ≤ max m 0 →
      text.take k <+: truncateByBytes text m := by
  refine ⟨truncateByBytes_eq text m, ?_, ?_, ?_⟩
  · rw [truncateByBytes_eq]
    exact longestUtf8Prefix_isPrefix _ _
  · rw [truncateByBytes_eq]
    have h := utf8Len_longestUtf8Prefix_le text (max m 0).toNat
    omega
  · intro k hk
    rw [truncateByBytes_eq]
    exact longestUtf8Prefix_longest _ _ _ (by omega)

/-- Closed witness for C5 at `text = "a中b"`, `max_bytes = 4`. -/
theorem C5_truncate_by_bytes_characterization_witness :
    truncateByBytes ("a中b").data 4 = ("a中").data ∧
    (utf8Len (("a中b").data.take 1) : Int) ≤ max 4 0 ∧
    ("a中b").data.take 1 <+: truncateByBytes ("a中b").data 4 :=
  ⟨by rw [(C5_truncate_by_bytes_characterization ("a中b").data 4).1]; decide,
   by decide,
   (C5_truncate_by_bytes_characterization ("a中b").data 4).2.2.2 1 (by decide)⟩

/-! ### Model of `_byte_aware_semantic_truncate` (`commands/optimize.py` 219–278)

Python evaluates the layer budgets `[max_bytes, max_bytes*0.85, max_bytes*0.75]`
and the window bounds `layer_bytes*0.6`, `layer_bytes*0.7` in IEEE-754 floats.
All these values are rationals with denominator dividing 100, so we model a
layer budget exactly as the integer `L100 = 100 * layer_bytes` ("centibytes")
and scale every comparison accordingly; this is exact rational arithmetic.
For every `max_bytes` below `2^50` the float comparisons of CPython agree
with the exact ones (the rounding error of an IEEE-754 product `n * 0.6` is
far smaller than the distance from the exact value to the nearest competing
integer), so no reachable behaviour differs. -/

/-- `sentence_endings = ['.', '!', '?', '。', '！', '？']` -/
def sentenceEndings : Str := ['.', '!', '?', '。', '！', '？']

/-- The source line `phrase_endings = [',', ';', ':', '，', '；', '：', '"', '"', ''', ''']`
holds ASCII quotes where curly quotes were evidently intended: it parses as
eight one-character strings (the double quote twice) followed by the
triple-quoted string `", "`.  Python's `char in phrase_endings` compares the
one-character string `char` against each element, so the two-character
element never matches. -/
def phraseEndings : List Str :=
  [",".data, ";".data, ":".data, "，".data, "；".data, "：".data,
   "\"".data, "\"".data, ", ".data]

/-- `' \t\n，。：；'` : break characters of strategy 3. -/
def strat3BreakChars : Str := [' ', '\t', '\n', '，', '。', '：', '；']

/-- The ellipsis marker `"…"` appended by the truncator (3 UTF-8 bytes). -/
def ellipsis : Str := ['…']

/-- Strategy 1: scan for the first index `i` whose character is a sentence
ending with `len(text[:i+1].encode()) <= layer_bytes` and
`>= layer_bytes * 0.6`; return `text[:i+1]`.  `acc`/`accB` accumulate
`text[:i]` and its byte length; `L100` is 100·layer_bytes. -/
def sentenceScan (L100 : Int) (acc : Str) (accB : Nat) : Str → Option Str
  | [] => none
  | c :: rest =>
    if c ∈ sentenceEndings ∧ 100 * ((accB + utf8Size c : Nat) : Int) ≤ L100 ∧
        6 * L100 ≤ 1000 * ((accB + utf8Size c : Nat) : Int) then
      some (acc ++ [c])
    else sentenceScan L100 (acc ++ [c]) (accB + utf8Size c) rest

/-- Strategy 2: scan for the first index `i` whose character is in
`phrase_endings` with `len(text[:i].encode()) <= layer_bytes - 3` and
`>= layer_bytes * 0.7`; return `text[:i] + "…"`. -/
def phraseScan (L100 : Int) (acc : Str) (accB : Nat) : Str → Option Str
  | [] => none
  | c :: rest =>
    if [c] ∈ phraseEndings ∧ 100 * ((accB : Nat) : Int) ≤ L100 - 300 ∧
        7 * L100 ≤ 1000 * ((accB : Nat) : Int) then
      some (acc ++ ellipsis)
    else phraseScan L100 (acc ++ [c]) (accB + utf8Size c) rest

/-- Strategy 3: `for truncate_pos in range(max_char_estimate, max(layer_bytes // 4, 10), -1)`,
skipping positions past the end, return `text[:truncate_pos] + "…"` at the
first position whose prefix fits in `layer_bytes - 3` bytes and sits at a
break character.  The argument is the current `truncate_pos`. -/
def boundaryScan (L100 : Int) (t : Str) (low : Nat) : Nat → Option Str
  | 0 => none
  | pos + 1 =>
    if pos + 1 ≤ low then none
    else if t.length ≤ pos + 1 then boundaryScan L100 t low pos
    else
      if 100 * (utf8Len (t.take (pos + 1)) : Int) ≤ L100 - 300 ∧
          (pos + 1 = t.length ∨ t.getD (pos + 1) ' ' ∈ strat3BreakChars) then
        some (t.take (pos + 1) ++ ellipsis)
      else boundaryScan L100 t low pos

/-- Strategy 4: `result = _truncate_by_bytes(text, layer_bytes - 3)`; if
non-empty, return `result + "…"`.  `layer_bytes` is `L100 / 100` (Lean's
`Int` division is euclidean, which for the positive divisors used here is
exactly Python's floor division `//`).  For the two fractional layers
CPython would raise `TypeError` on the float slice bound, but those layers
are unreachable because strategy 4 of the first, integral layer already
returns for every non-empty over-budget text, so this totalisation affects
no reachable behaviour. -/
def strat4 (t : Str) (L100 : Int) : Option Str :=
  if truncateByBytes t (L100 / 100 - 3) ≠ [] then
    some (truncateByBytes t (L100 / 100 - 3) ++ ellipsis)
  else none

/-- One layer of the truncation loop: strategies 1–4 in order.
`max_char_estimate = min(len(text), layer_bytes // 2)` and the lower range
bound `max(layer_bytes // 4, 10)` use Python floor division, which for these
positive divisors coincides with Lean's euclidean `Int` division. -/
def layerAttempt (t : Str) (L100 : Int) : Option Str :=
  match sentenceScan L100 [] 0 t with
  | some r => some r
  | none =>
    match phraseScan L100 [] 0 t with
    | some r => some r
    | none =>
      match boundaryScan L100 t (max (L100 / 400).toNat 10)
          (min t.length (L100 / 200).toNat) with
      | some r => some r
      | none => strat4 t L100

/-- `for layer_bytes in target_layers: if layer_bytes < 15: continue; …` -/
def layersLoop (t : Str) : List Int → Option Str
  | [] => none
  | L100 :: rest =>
    if L100 < 1500 then layersLoop t rest
    else
      match layerAttempt t L100 with
      | some r => some r
      | none => layersLoop t rest

/-- Model of `_byte_aware_semantic_truncate(text, max_bytes)`
(`commands/optimize.py`, lines 219–278); the three layers are
`[max_bytes, max_bytes*0.85, max_bytes*0.75]`, in centibytes. -/
def byteAwareSemanticTruncate (text : Str) (maxBytes : Int) : Str :=
  if (utf8Len text : Int) ≤ maxBytes then text
  else if maxBytes < 15 then truncateByBytes text (maxBytes - 3) ++ ellipsis
  else
    match layersLoop text [100 * maxBytes, 85 * maxBytes, 75 * maxBytes] with
    | some r => r
    | none => truncateByBytes text (maxBytes - 3) ++ ellipsis

/-! ### Byte-length bounds for the truncator -/

theorem utf8Len_truncateByBytes (t : Str) (m : Int) :
    (utf8Len (truncateByBytes t m) : Int) ≤ max m 0 := by
  rw [truncateByBytes_eq]
  have := utf8Len_longestUtf8Prefix_le t (max m 0).toNat
  omega

theorem utf8Len_ellipsis : utf8Len ellipsis = 3 := rfl

theorem utf8Len_eq_zero {s : Str} (h : utf8Len s = 0) : s = [] := by
  cases s with
  | nil => rfl
  | cons c rest =>
    rw [utf8Len_cons] at h
    have := utf8Size_pos c
    omega

theorem sentenceScan_some_len {L100 : Int} {r : Str} :
    ∀ (todo acc : Str) (accB : Nat), utf8Len acc = accB →
      sentenceScan L100 acc accB todo = some r → 100 * (utf8Len r : Int) ≤ L100 := by
  intro todo
  induction todo with
  | nil => intro acc accB _ h; exact absurd h (by rw [sentenceScan]; simp)
  | cons c rest ih =>
    intro acc accB hacc h
    rw [sentenceScan] at h
    split_ifs at h with hcond
    · obtain ⟨-, hle, -⟩ := hcond
      injection h with h
      subst h
      have hlen : utf8Len (acc ++ [c]) = accB + utf8Size c := by
        rw [utf8Len_append, utf8Len_cons, utf8Len_nil, hacc]; omega
      rw [hlen]
      omega
    · exact ih (acc ++ [c]) (accB + utf8Size c)
        (by rw [utf8Len_append, utf8Len_cons, utf8Len_nil, hacc]; omega) h


theorem phraseScan_some_len {L100 : Int} {r : Str} :
    ∀ (todo acc : Str) (accB : Nat), utf8Len acc = accB →
      phraseScan L100 acc accB todo = some r → 100 * (utf8Len r : Int) ≤ L100 := by
  intro todo
  induction todo with
  | nil => intro acc accB _ h; exact absurd h (by rw [phraseScan]; simp)
  | cons c rest ih =>
    intro acc accB hacc h
    rw [phraseScan] at h
    split_ifs at h with hcond
    · obtain ⟨-, hle, -⟩ := hcond
      injection h with h
      subst h
      have hlen : utf8Len (acc ++ ellipsis) = accB + 3 := by
        rw [utf8Len_append, utf8Len_ellipsis, hacc]
      rw [hlen]
      omega
    · exact ih (acc ++ [c]) (accB + utf8Size c)
        (by rw [utf8Len_append, utf8Len_cons, utf8Len_nil, hacc]; omega) h

theorem boundaryScan_some_len {L100 : Int} {t : Str} {low : Nat} {r : Str} :
    ∀ pos : Nat, boundaryScan L100 t low pos = some r → 100 * (utf8Len r : Int) ≤ L100 := by
  intro pos
  induction pos with
  | zero => intro h; exact absurd h (by rw [boundaryScan]; simp)
  | succ pos ih =>
    intro h
    rw [boundaryScan] at h
    by_cases h1 : pos + 1 ≤ low
    · rw [if_pos h1] at h
      exact absurd h (by simp)
    · rw [if_neg h1] at h
      by_cases h2 : t.length ≤ pos + 1
      · rw [if_pos h2] at h
        exact ih h
      · rw [if_neg h2] at h
        by_cases h3 : 100 * (utf8Len (t.take (pos + 1)) : Int) ≤ L100 - 300 ∧
            (pos + 1 = t.length ∨ t.getD (pos + 1) ' ' ∈ strat3BreakChars)
        · rw [if_pos h3] at h
          injection h with h
          subst h
          rw [utf8Len_append, utf8Len_ellipsis]
          push_cast
          omega
        · rw [if_neg h3] at h
          exact ih h

theorem strat4_some_len {t : Str} {L100 : Int} {r : Str}
    (h : strat4 t L100 = some r) : 100 * (utf8Len r : Int) ≤ L100 := by
  unfold strat4 at h
  split_ifs at h with hne
  · injection h with h
    subst h
    have hb := utf8Len_truncateByBytes t (L100 / 100 - 3)
    have hpos : 1 ≤ utf8Len (truncateByBytes t (L100 / 100 - 3)) := by
      rcases Nat.eq_zero_or_pos (utf8Len (truncateByBytes t (L100 / 100 - 3))) with h0 | h0
      · exact absurd (utf8Len_eq_zero h0) hne
      · exact h0
    rw [utf8Len_append, utf8Len_ellipsis]
    push_cast
    omega

theorem layerAttempt_some_len {t : Str} {L100 : Int} {r : Str}
    (h : layerAttempt t L100 = some r) : 100 * (utf8Len r : Int) ≤ L100 := by
  unfold layerAttempt at h
  cases h1 : sentenceScan L100 [] 0 t with
  | some r1 =>
    rw [h1] at h
    injection h with h
    subst h
    exact sentenceScan_some_len t [] 0 rfl h1
  | none =>
    rw [h1] at h
    cases h2 : phraseScan L100 [] 0 t with
    | some r2 =>
      rw [h2] at h
      injection h with h
      subst h
      exact phraseScan_some_len t [] 0 rfl h2
    | none =>
      rw [h2] at h
      cases h3 : boundaryScan L100 t (max (L100 / 400).toNat 10)
          (min t.length (L100 / 200).toNat) with
      | some r3 =>
        rw [h3] at h
        injection h with h
        subst h
        exact boundaryScan_some_len _ h3
      | none =>
        rw [h3] at h
        exact strat4_some_len h

theorem layersLoop_some_len {t : Str} {r : Str} {B : Int} :
    ∀ layers : List Int, (∀ L ∈ layers, L ≤ B) →
      layersLoop t layers = some r → 100 * (utf8Len r : Int) ≤ B := by
  intro layers
  induction layers with
  | nil => intro _ h; exact absurd h (by rw [layersLoop]; simp)
  | cons L rest ih =>
    intro hmem h
    rw [layersLoop] at h
    split_ifs at h with hL
    · exact ih (fun L' hL' => hmem L' (List.mem_cons_of_mem _ hL')) h
    · cases hA : layerAttempt t L with
      | some r1 =>
        rw [hA] at h
        injection h with h
        subst h
        have := layerAttempt_some_len hA
        have hLB : L ≤ B := hmem L (List.mem_cons_self _ _)
        omega
      | none =>
        rw [hA] at h
        exact ih (fun L' hL' => hmem L' (List.mem_cons_of_mem _ hL')) h

/-- Claim C9: If the UTF-8 byte length of `text` is already at most
`max_bytes`, `_byte_aware_semantic_truncate` returns `text` unchanged (the
truncator is the identity on budget-compliant inputs, hence idempotent). -/
theorem C9_truncate_identity_on_compliant (text : Str) (maxBytes : Int)
    (h : (utf8Len text : Int) ≤ maxBytes) :
    byteAwareSemanticTruncate text maxBytes = text := by
  unfold byteAwareSemanticTruncate
  rw [if_pos h]

/-- Closed witness for C9 at `text = "hi"`, `max_bytes = 10`. -/
theorem C9_truncate_identity_on_compliant_witness :
    (utf8Len "hi".data : Int) ≤ 10 ∧
      byteAwareSemanticTruncate "hi".data 10 = "hi".data :=
  ⟨by decide, C9_truncate_identity_on_compliant "hi".data 10 (by decide)⟩

/-- Claim C1, counterexample: At `text = "aaaa"`, `max_bytes = 1` (positive and
smaller than the 3-byte cost of the ellipsis marker), the small-budget
branch returns `_truncate_by_bytes(text, -2) + "…" = "…"`: the result has
UTF-8 byte length 3 > 1, and it is the appended ellipsis rather than the
claimed hard truncation without ellipsis. -/
theorem C1_truncate_within_budget_counterexample :
    byteAwareSemanticTruncate "aaaa".data 1 = ellipsis ∧
      ¬ (utf8Len (byteAwareSemanticTruncate "aaaa".data 1) : Int) ≤ 1 := by
  constructor
  · decide
  · decide

/-- Claim C1, amended: For every text, the result of
`_byte_aware_semantic_truncate(text, max_bytes)` has UTF-8 byte length at
most `max_bytes` whenever `max_bytes ≥ 3` (the byte cost of the ellipsis
marker).  For `max_bytes < 15` the code appends the ellipsis to a hard
truncation at `max_bytes - 3` bytes — so for `max_bytes < 3` the result is
the bare ellipsis (3 bytes), which exceeds the budget. -/
theorem C1_truncate_within_budget_amended (text : Str) (maxBytes : Int)
    (h3 : 3 ≤ maxBytes) :
    (utf8Len (byteAwareSemanticTruncate text maxBytes) : Int) ≤ maxBytes := by
  unfold byteAwareSemanticTruncate
  split_ifs with h1 h2
  · exact h1
  · rw [utf8Len_append, utf8Len_ellipsis]
    have := utf8Len_truncateByBytes text (maxBytes - 3)
    push_cast
    omega
  · cases hloop : layersLoop text [100 * maxBytes, 85 * maxBytes, 75 * maxBytes] with
    | some r =>
      have hmem : ∀ L ∈ [100 * maxBytes, 85 * maxBytes, 75 * maxBytes],
          L ≤ 100 * maxBytes := by
        intro L hL
        simp at hL
        rcases hL with h | h | h <;> subst h <;> omega
      have := layersLoop_some_len _ hmem hloop
      dsimp only
      omega
    | none =>
      dsimp only
      rw [utf8Len_append, utf8Len_ellipsis]
      have := utf8Len_truncateByBytes text (maxBytes - 3)
      push_cast
      omega

/-- Closed witness for C1's amended bound at `text = "aaaa"`, `max_bytes = 3`. -/
theorem C1_truncate_within_budget_amended_witness :
    (3 : Int) ≤ 3 ∧
      (utf8Len (byteAwareSemanticTruncate "aaaa".data 3) : Int) ≤ 3 :=
  ⟨le_refl 3, C1_truncate_within_budget_amended "aaaa".data 3 (by decide)⟩

theorem utf8Len_take_succ {t : Str} {n : Nat} (h : n < t.length) :
    utf8Len (t.take (n + 1)) = utf8Len (t.take n) + utf8Size t[n] := by
  rw [← List.take_concat_get' t n h, utf8Len_append, utf8Len_cons, utf8Len_nil]
  omega

theorem sentenceScan_first {t : Str} {L100 : Int} {i : Nat} (hi : i < t.length)
    (hcond : t.getD i ' ' ∈ sentenceEndings ∧
      100 * (utf8Len (t.take (i + 1)) : Int) ≤ L100 ∧
      6 * L100 ≤ 1000 * (utf8Len (t.take (i + 1)) : Int))
    (hmin : ∀ j, j < i → ¬(t.getD j ' ' ∈ sentenceEndings ∧
      100 * (utf8Len (t.take (j + 1)) : Int) ≤ L100 ∧
      6 * L100 ≤ 1000 * (utf8Len (t.take (j + 1)) : Int))) :
    sentenceScan L100 [] 0 t = some (t.take (i + 1)) := by
  suffices h : ∀ k n, i - n = k → n ≤ i →
      sentenceScan L100 (t.take n) (utf8Len (t.take n)) (t.drop n) =
        some (t.take (i + 1)) by
    have := h i 0 (by omega) (by omega)
    simpa using this
  intro k
  induction k with
  | zero =>
    intro n hk hn
    have hni : n = i := by omega
    subst hni
    rw [List.drop_eq_getElem_cons hi, sentenceScan]
    rw [if_pos]
    · rw [List.take_concat_get' t n hi]
    · obtain ⟨hc, hle, hge⟩ := hcond
      rw [List.getD_eq_getElem t ' ' hi] at hc
      rw [utf8Len_take_succ hi] at hle hge
      exact ⟨hc, hle, hge⟩
  | succ k ih =>
    intro n hk hn
    have hnlt : n < i := by omega
    have hnl : n < t.length := by omega
    rw [List.drop_eq_getElem_cons hnl, sentenceScan]
    rw [if_neg, List.take_concat_get' t n hnl,
      show utf8Len (t.take n) + utf8Size t[n] = utf8Len (t.take (n + 1)) from
        (utf8Len_take_succ hnl).symm]
    · exact ih (n + 1) (by omega) (by omega)
    · rintro ⟨hc, hle, hge⟩
      refine hmin n hnlt ⟨?_, ?_, ?_⟩
      · rw [List.getD_eq_getElem t ' ' hnl]
        exact hc
      · rw [utf8Len_take_succ hnl]
        exact hle
      · rw [utf8Len_take_succ hnl]
        exact hge

/-- Claim C6, counterexample: Input `"aaaaaaaaaa.bbbbbbbbbbbbbb"` (25 bytes),
`max_bytes = 20`.  The only sentence-terminal mark is the `.` at index 10;
its prefix `"aaaaaaaaaa."` has 11 bytes, inside the claimed window
`[0.5*max_bytes, max_bytes] = [10, 20]`, so the claim prescribes the cut
`text[:11]` with no ellipsis.  The code's window is `[0.6*max_bytes,
max_bytes] = [12, 20]`, which the `.` misses, so the code instead falls
through to strategy 4 and returns a 17-byte hard prefix plus an ellipsis —
not `text[:11]`. -/
theorem C6_sentence_cut_counterexample :
    20 < (utf8Len "aaaaaaaaaa.bbbbbbbbbbbbbb".data : Int) ∧
    "aaaaaaaaaa.bbbbbbbbbbbbbb".data.getD 10 ' ' ∈ sentenceEndings ∧
    20 ≤ 2 * utf8Len ("aaaaaaaaaa.bbbbbbbbbbbbbb".data.take 11) ∧
    utf8Len ("aaaaaaaaaa.bbbbbbbbbbbbbb".data.take 11) ≤ 20 ∧
    (∀ j, j < 25 → j ≠ 10 →
      "aaaaaaaaaa.bbbbbbbbbbbbbb".data.getD j ' ' ∉ sentenceEndings) ∧
    byteAwareSemanticTruncate "aaaaaaaaaa.bbbbbbbbbbbbbb".data 20 ≠
      "aaaaaaaaaa.bbbbbbbbbbbbbb".data.take 11 := by
  refine ⟨by decide, by decide, by decide, by decide, by decide, by decide⟩

/-- Claim C6, amended: When the input exceeds the byte budget (and
`max_bytes ≥ 15`, so the layer loop runs), the truncator's sentence step
cuts at the **first** sentence-terminal punctuation mark among `. ! ? 。！？`
whose prefix byte length lies within `[0.6*max_bytes, max_bytes]` (not the
last such mark, and the window's lower edge is 0.6, not 0.5), and returns
that prefix without appending an ellipsis. -/
theorem C6_sentence_cut_amended (text : Str) (maxBytes : Int) (i : Nat)
    (hover : maxBytes < (utf8Len text : Int))
    (h15 : 15 ≤ maxBytes)
    (hi : i < text.length)
    (hc : text.getD i ' ' ∈ sentenceEndings)
    (hle : (utf8Len (text.take (i + 1)) : Int) ≤ maxBytes)
    (hge : 3 * maxBytes ≤ 5 * (utf8Len (text.take (i + 1)) : Int))
    (hmin : ∀ j, j < i → ¬(text.getD j ' ' ∈ sentenceEndings ∧
      (utf8Len (text.take (j + 1)) : Int) ≤ maxBytes ∧
      3 * maxBytes ≤ 5 * (utf8Len (text.take (j + 1)) : Int))) :
    byteAwareSemanticTruncate text maxBytes = text.take (i + 1) := by
  have hscan : sentenceScan (100 * maxBytes) [] 0 text = some (text.take (i + 1)) := by
    apply sentenceScan_first hi
    · exact ⟨hc, by omega, by omega⟩
    · rintro j hj ⟨hjc, hjle, hjge⟩
      exact hmin j hj ⟨hjc, by omega, by omega⟩
  unfold byteAwareSemanticTruncate
  rw [if_neg (by omega), if_neg (by omega), layersLoop, if_neg (by omega),
    layerAttempt, hscan]

/-- Closed witness for C6's amended sentence-cut behaviour at
`text = "abcdefgh.xxxxxxxxx"`, `max_bytes = 15`, first qualifying index 8. -/
theorem C6_sentence_cut_amended_witness :
    byteAwareSemanticTruncate "abcdefgh.xxxxxxxxx".data 15 =
      "abcdefgh.xxxxxxxxx".data.take 9 :=
  C6_sentence_cut_amended "abcdefgh.xxxxxxxxx".data 15 8 (by decide) (by decide)
    (by decide) (by decide) (by decide) (by decide) (by decide)

/-! ### Model of `_ensure_unique_filename` (`commands/optimize.py` 801–869)

Python's `str.lower()` is a Unicode table; the embedding takes it as an
explicit parameter `pyLower` and theorems quantify over it.  `asciiLower`
below is its restriction to ASCII, used to instantiate witnesses whose
strings are pure ASCII.  The wall-clock `datetime.now().strftime(...)`
string is likewise a parameter `timestamp`.  Python sets of names are
modelled as lists (only membership is used). -/

/-- ASCII lowering of one character: Python `str.lower` restricted to ASCII. -/
def asciiLowerChar (c : Char) : Char :=
  if 'A' ≤ c ∧ c ≤ 'Z' then Char.ofNat (c.toNat + 32) else c

/-- ASCII lowering of a string. -/
def asciiLower (s : Str) : Str := s.map asciiLowerChar

/-- The decimal digit character for `d < 10`. -/
def digitChar (d : Nat) : Char := Char.ofNat (48 + d)

/-- `f"{i:03d}"` for `0 ≤ i ≤ 999` — the only arguments the numbered loop
produces (for larger `i` Python would print more digits; unused here). -/
def pad3 (n : Nat) : Str :=
  [digitChar (n / 100 % 10), digitChar (n / 10 % 10), digitChar (n % 10)]

/-- `.rstrip('_-. ')` : drop trailing characters from the set `_-. `. -/
def rstripSet (s : Str) : Str :=
  (s.reverse.dropWhile (· ∈ ['_', '-', '.', ' '])).reverse

/-- The stem after the pre-loop truncation of `_ensure_unique_filename`
(`available_bytes = max_bytes - 5 - 4`; truncate and rstrip only when the
filename exceeds it). -/
def truncatedStem (filename : Str) (maxBytes : Int) : Str :=
  if maxBytes - 9 < (utf8Len filename : Int) then
    rstripSet (truncateByBytes filename (maxBytes - 9))
  else filename

/-- `len(candidate.encode('utf-8')) + extension_bytes` for the candidate
`f"{base}_{i:03d}"` (extension reserve is 5 bytes for `.html`). -/
def candBytes (base : Str) (i : Nat) : Int := (utf8Len (base ++ '_' :: pad3 i) : Int) + 5

/-- The further-truncated base used when a numbered candidate overflows:
`new_available = available_bytes - overage`, then truncate + rstrip. -/
def shrunkBase (base : Str) (maxBytes : Int) (i : Nat) : Str :=
  rstripSet (truncateByBytes base ((maxBytes - 9) - (candBytes base i - maxBytes)))

/-- The `for i in range(1, 1000)` loop of `_ensure_unique_filename`:
`fuel` counts the remaining iterations (the loop is entered with
`fuel = 999`, `i = 1`), `base` is the mutable `base_filename`. -/
def tryNumbered (pyLower : Str → Str) (rlow : List Str) (maxBytes : Int) :
    Nat → Nat → Str → Option Str
  | 0, _, _ => none
  | fuel + 1, i, base =>
    if candBytes base i ≤ maxBytes ∧ pyLower (base ++ '_' :: pad3 i) ∉ rlow then
      some (base ++ '_' :: pad3 i)
    else if maxBytes < candBytes base i then
      if 10 ≤ (maxBytes - 9) - (candBytes base i - maxBytes) then
        if pyLower (shrunkBase base maxBytes i ++ '_' :: pad3 i) ∉ rlow then
          some (shrunkBase base maxBytes i ++ '_' :: pad3 i)
        else tryNumbered pyLower rlow maxBytes fuel (i + 1) (shrunkBase base maxBytes i)
      else tryNumbered pyLower rlow maxBytes fuel (i + 1) base
    else tryNumbered pyLower rlow maxBytes fuel (i + 1) base

/-- Model of `_ensure_unique_filename(filename, existing_names, max_bytes)`
(`commands/optimize.py`, lines 801–869).  `timestamp` is the value of
`datetime.now().strftime('%H%M%S')` on the fallback path. -/
def ensureUniqueFilename (pyLower : Str → Str) (filename : Str)
    (existingNames : Option (List Str)) (maxBytes : Int) (timestamp : Str) : Str :=
  match existingNames with
  | none => filename
  | some names =>
    if pyLower filename ∉ names.map pyLower then filename
    else
      match tryNumbered pyLower (names.map pyLower) maxBytes 999 1
          (truncatedStem filename maxBytes) with
      | some c => c
      | none =>
        if 5 ≤ maxBytes - 5 - (utf8Len ('_' :: timestamp) : Int) then
          truncateByBytes filename (maxBytes - 5 - (utf8Len ('_' :: timestamp) : Int)) ++
            '_' :: timestamp
        else "file".data ++ '_' :: timestamp

/-- Claim C10: With `existing_names = None`, `_ensure_unique_filename` returns
the filename completely unchanged — no uniqueness check and no byte-length
enforcement happen, for every filename, byte budget and timestamp. -/
theorem C10_none_registry_returns_unchanged (pyLower : Str → Str) (filename : Str)
    (maxBytes : Int) (timestamp : Str) :
    ensureUniqueFilename pyLower filename none maxBytes timestamp = filename := rfl

theorem tryNumbered_some_not_mem {pyLower : Str → Str} {rlow : List Str}
    {maxBytes : Int} {c : Str} :
    ∀ (fuel i : Nat) (base : Str),
      tryNumbered pyLower rlow maxBytes fuel i base = some c → pyLower c ∉ rlow := by
  intro fuel
  induction fuel with
  | zero => intro i base h; exact absurd h (by rw [tryNumbered]; simp)
  | succ fuel ih =>
    intro i base h
    rw [tryNumbered] at h
    split_ifs at h with h1 h2 h3 h4 <;>
      first
        | (injection h with h; subst h; (first | exact h1.2 | assumption))
        | exact ih _ _ h

set_option maxRecDepth 8000 in
/-- Claim C2, counterexample: `filename = "a"`, registry `{"a", "file_000000"}`,
`max_bytes = 5`, timestamp `"000000"`.  Every numbered candidate overflows
the 5-byte budget, so the resolver falls through to the ultimate timestamp
fallback `f"file_{timestamp}"` — which it returns **without** consulting
the registry, even though `"file_000000"` is already registered: the result's
lowercase form is a member of the lowercased registry. -/
theorem C2_resolver_unique_counterexample :
    ensureUniqueFilename asciiLower "a".data
        (some ["a".data, "file_000000".data]) 5 "000000".data =
      "file_000000".data ∧
    asciiLower "file_000000".data ∈
      (["a".data, "file_000000".data]).map asciiLower := by
  constructor
  · decide
  · decide


/-- Claim C2, amended: For every lowering function, candidate, registry,
byte budget and timestamp, the stem returned by `_ensure_unique_filename`
either is, lowercased, not a member of the lowercased registry (this holds
on the as-is path and on every numbered-suffix path, which re-check the
registry before returning), or it was produced by one of the two timestamp
fallbacks, which append `_` + timestamp without re-checking the registry —
so uniqueness there additionally requires the timestamped name to be fresh. -/
theorem C2_resolver_unique_amended (pyLower : Str → Str) (filename : Str)
    (names : List Str) (maxBytes : Int) (timestamp : Str) :
    pyLower (ensureUniqueFilename pyLower filename (some names) maxBytes timestamp) ∉
        names.map pyLower ∨
      ∃ b, ensureUniqueFilename pyLower filename (some names) maxBytes timestamp =
        b ++ '_' :: timestamp := by
  unfold ensureUniqueFilename
  dsimp only
  by_cases h1 : pyLower filename ∉ names.map pyLower
  · rw [if_pos h1]
    exact Or.inl h1
  · rw [if_neg h1]
    cases htry : tryNumbered pyLower (names.map pyLower) maxBytes 999 1
        (truncatedStem filename maxBytes) with
    | some c =>
      dsimp only
      exact Or.inl (tryNumbered_some_not_mem 999 1 _ htry)
    | none =>
      dsimp only
      split_ifs with h2
      · exact Or.inr ⟨truncateByBytes filename
          (maxBytes - 5 - (utf8Len ('_' :: timestamp) : Int)), rfl⟩
      · exact Or.inr ⟨"file".data, rfl⟩

theorem utf8Len_reverse (s : Str) : utf8Len s.reverse = utf8Len s := by
  induction s with
  | nil => rfl
  | cons c rest ih =>
    rw [List.reverse_cons, utf8Len_append, utf8Len_cons, utf8Len_cons, utf8Len_nil, ih]
    omega

theorem utf8Len_rstripSet_le (s : Str) : utf8Len (rstripSet s) ≤ utf8Len s := by
  unfold rstripSet
  rw [utf8Len_reverse]
  obtain ⟨pre, hpre⟩ := List.dropWhile_suffix (l := s.reverse) (· ∈ ['_', '-', '.', ' '])
  calc utf8Len (s.reverse.dropWhile (· ∈ ['_', '-', '.', ' ']))
      ≤ utf8Len pre + utf8Len (s.reverse.dropWhile (· ∈ ['_', '-', '.', ' '])) := by omega
    _ = utf8Len s.reverse := by rw [← utf8Len_append, hpre]
    _ = utf8Len s := utf8Len_reverse s

theorem char_toNat_ofNat {n : Nat} (h : n < 0xD800) : (Char.ofNat n).toNat = n := by
  unfold Char.ofNat
  rw [dif_pos (Or.inl h)]
  rfl

theorem utf8Size_digitChar (d : Nat) (h : d < 10) : utf8Size (digitChar d) = 1 := by
  unfold utf8Size digitChar
  rw [if_pos]
  rw [char_toNat_ofNat (by omega)]
  omega

theorem utf8Len_pad3 (n : Nat) : utf8Len (pad3 n) = 3 := by
  unfold pad3
  rw [utf8Len_cons, utf8Len_cons, utf8Len_cons, utf8Len_nil,
    utf8Size_digitChar _ (Nat.mod_lt _ (by omega)),
    utf8Size_digitChar _ (Nat.mod_lt _ (by omega)),
    utf8Size_digitChar _ (Nat.mod_lt _ (by omega))]

theorem candBytes_eq (base : Str) (i : Nat) :
    candBytes base i = (utf8Len base : Int) + 9 := by
  unfold candBytes
  rw [utf8Len_append, utf8Len_cons, utf8Len_pad3]
  push_cast
  have : utf8Size '_' = 1 := rfl
  omega

theorem truncatedStem_inv (filename : Str) (maxBytes : Int) :
    (utf8Len (truncatedStem filename maxBytes) : Int) + 9 ≤ maxBytes ∨
      (truncatedStem filename maxBytes = [] ∧ maxBytes < 9) := by
  unfold truncatedStem
  split_ifs with h
  · have h1 := utf8Len_rstripSet_le (truncateByBytes filename (maxBytes - 9))
    have h2 := utf8Len_truncateByBytes filename (maxBytes - 9)
    by_cases h9 : 9 ≤ maxBytes
    · left
      omega
    · right
      refine ⟨?_, by omega⟩
      apply utf8Len_eq_zero
      have : (utf8Len (truncateByBytes filename (maxBytes - 9)) : Int) ≤ 0 := by omega
      omega
  · left
    omega

theorem tryNumbered_none {pyLower : Str → Str} {rlow : List Str} {maxBytes : Int} :
    ∀ (fuel i : Nat) (base : Str), fuel + i = 1000 → 1 ≤ i →
      ((utf8Len base : Int) + 9 ≤ maxBytes ∨ (base = [] ∧ maxBytes < 9)) →
      (∀ j, i ≤ j → j ≤ 999 → pyLower (base ++ '_' :: pad3 j) ∈ rlow) →
      tryNumbered pyLower rlow maxBytes fuel i base = none := by
  intro fuel
  induction fuel with
  | zero => intro i base _ _ _ _; rw [tryNumbered]
  | succ fuel ih =>
    intro i base hfi hi hinv htaken
    have hi999 : i ≤ 999 := by omega
    rcases hinv with hfit | ⟨hnil, hsmall⟩
    · rw [tryNumbered, if_neg, if_neg]
      · exact ih (i + 1) base (by omega) (by omega) (Or.inl hfit)
          fun j h1 h2 => htaken j (by omega) h2
      · rw [candBytes_eq]
        omega
      · rintro ⟨-, hmem⟩
        exact hmem (htaken i le_rfl hi999)
    · subst hnil
      rw [tryNumbered, if_neg, if_pos, if_neg]
      · exact ih (i + 1) [] (by omega) (by omega) (Or.inr ⟨rfl, hsmall⟩)
          fun j h1 h2 => htaken j (by omega) h2
      · rw [candBytes_eq]
        show ¬ (10 : Int) ≤ _
        rw [utf8Len_nil]
        push_cast
        omega
      · rw [candBytes_eq, utf8Len_nil]
        push_cast
        omega
      · rw [candBytes_eq, utf8Len_nil]
        rintro ⟨habs, -⟩
        push_cast at habs
        omega

/-- Claim C7: If the registry already contains the candidate filename itself
together with all 999 numbered variants `_001`–`_999` of its (possibly
truncated) stem, `_ensure_unique_filename` terminates normally (in the
embedding it is a total function — no exception path exists) and returns a
timestamp-suffixed variant: some stem followed by `_` + timestamp. -/
theorem C7_exhausted_registry_timestamp_fallback (pyLower : Str → Str)
    (filename : Str) (names : List Str) (maxBytes : Int) (timestamp : Str)
    (hself : pyLower filename ∈ names.map pyLower)
    (hvariants : ∀ i, 1 ≤ i → i ≤ 999 →
      pyLower (truncatedStem filename maxBytes ++ '_' :: pad3 i) ∈ names.map pyLower) :
    ∃ b, ensureUniqueFilename pyLower filename (some names) maxBytes timestamp =
      b ++ '_' :: timestamp := by
  unfold ensureUniqueFilename
  dsimp only
  rw [if_neg (not_not_intro hself)]
  rw [tryNumbered_none 999 1 _ (by omega) (by omega)
    (truncatedStem_inv filename maxBytes) (fun j h1 h2 => hvariants j h1 h2)]
  dsimp only
  split_ifs with h2
  · exact ⟨_, rfl⟩
  · exact ⟨"file".data, rfl⟩

/-- A registry holding `"a"` and the numbered variants `"_001"`–`"_999"` of
the (fully truncated) stem, used by the C7 witness. -/
def c7Registry : List Str :=
  "a".data :: (List.range 999).map (fun k => '_' :: pad3 (k + 1))

theorem asciiLowerChar_digitChar (d : Nat) (h : d < 10) :
    asciiLowerChar (digitChar d) = digitChar d := by
  interval_cases d <;> rfl

theorem asciiLower_underscore_pad3 (n : Nat) :
    asciiLower ('_' :: pad3 n) = '_' :: pad3 n := by
  unfold asciiLower pad3
  simp only [List.map_cons, List.map_nil]
  rw [asciiLowerChar_digitChar _ (Nat.mod_lt _ (by omega)),
    asciiLowerChar_digitChar _ (Nat.mod_lt _ (by omega)),
    asciiLowerChar_digitChar _ (Nat.mod_lt _ (by omega))]
  rfl

/-- Closed witness for C7: `filename = "a"`, `max_bytes = 5`, registry
`c7Registry` (the candidate plus all 999 numbered variants of its truncated
stem), timestamp `"000000"`. -/
theorem C7_exhausted_registry_timestamp_fallback_witness :
    ∃ b, ensureUniqueFilename asciiLower "a".data (some c7Registry) 5
        "000000".data = b ++ '_' :: "000000".data := by
  apply C7_exhausted_registry_timestamp_fallback
  · exact List.mem_map.mpr ⟨"a".data, List.mem_cons_self _ _, rfl⟩
  · intro i h1 h999
    have hstem : truncatedStem "a".data 5 = [] := by decide
    rw [hstem, List.nil_append]
    refine List.mem_map.mpr ⟨'_' :: pad3 i, ?_, rfl⟩
    refine List.mem_cons_of_mem _ (List.mem_map.mpr
      ⟨i - 1, List.mem_range.mpr (by omega), ?_⟩)
    rw [Nat.sub_add_cancel h1]

/-! ### Models from `utils/paths.py`: `remove_emoji`, `_generate_fallback_name`,
`optimize_filename` (lines 59–184) and `safe_filename` (lines 481–509)

`unicodedata.category`/`unicodedata.name` (the So/Sk-symbol keyword filter of
`remove_emoji`), Python's Unicode `str.lower`, the salted builtin `hash` and
`datetime.now().strftime` are external tables/state: they enter the embedding
as parameters (`symFilter`, `pyLower`, `hashFn`, `timestamp`), and theorems
quantify over them.  `_progressive_truncate_with_uniqueness` (line 187) — an
internal helper whose body depends on `hashlib.md5` and `re` — likewise
enters as the parameter `progressive`; every claim settled here returns on a
path that never reaches it, so quantifying over it keeps the theorems true
of the real code. -/

/-- Python whitespace (`str.isspace` / regex `\s` for `str`). -/
def pyIsSpace (c : Char) : Bool :=
  c ∈ [' ', '\t', '\n', '\r', '\x0b', '\x0c', '\x1c', '\x1d', '\x1e', '\x1f',
       '\x85', '\xa0', '\u1680', '\u2000', '\u2001', '\u2002', '\u2003',
       '\u2004', '\u2005', '\u2006', '\u2007', '\u2008', '\u2009', '\u200a',
       '\u2028', '\u2029', '\u202f', '\u205f', '\u3000']

/-- `re.sub(r'\s+', rep, s)` for a one-character replacement `rep`: replace
every maximal whitespace run by `rep`.  The Boolean records whether the
previous character was whitespace. -/
def subWsRunsAux (rep : Char) : Bool → Str → Str
  | _, [] => []
  | prevWs, c :: rest =>
    if pyIsSpace c then
      if prevWs then subWsRunsAux rep true rest
      else rep :: subWsRunsAux rep true rest
    else c :: subWsRunsAux rep false rest

/-- `re.sub(r'\s+', rep, s)` with a one-character replacement. -/
def subWsRuns (rep : Char) (s : Str) : Str := subWsRunsAux rep false s

/-- `s.strip()` : drop whitespace from both ends. -/
def stripWs (s : Str) : Str :=
  ((s.dropWhile (pyIsSpace ·)).reverse.dropWhile (pyIsSpace ·)).reverse

/-- The fifteen `emoji_ranges` of `remove_emoji` (`utils/paths.py` 70–87). -/
def emojiRanges : List (Nat × Nat) :=
  [(0x1F600, 0x1F64F), (0x1F300, 0x1F5FF), (0x1F680, 0x1F6FF),
   (0x1F1E0, 0x1F1FF), (0x1F700, 0x1F77F), (0x1F780, 0x1F7FF),
   (0x1F800, 0x1F8FF), (0x1F900, 0x1F9FF), (0x1FA00, 0x1FA6F),
   (0x1FA70, 0x1FAFF), (0x2600, 0x26FF), (0x2700, 0x27BF),
   (0xFE00, 0xFE0F), (0x1F000, 0x1F02F), (0x1F0A0, 0x1F0FF)]

/-- Is the character inside one of the explicit emoji ranges? -/
def inEmojiRange (c : Char) : Bool :=
  emojiRanges.any fun r => decide (r.1 ≤ c.toNat ∧ c.toNat ≤ r.2)

/-- Model of `remove_emoji(text)` (`utils/paths.py`, lines 59–122).
`symFilter c` models the external test "`unicodedata.category(c)` is So/Sk
and `unicodedata.name(c)` contains one of the curated keywords". -/
def removeEmoji (symFilter : Char → Bool) (text : Str) : Str :=
  if text = [] then text
  else stripWs (subWsRuns ' '
    (text.filter fun c => !(inEmojiRange c || symFilter c)))

/-- Decimal representation of a natural number (`f"{i}"`); the fuel (first
argument of the auxiliary) is structural and `n + 1` always suffices. -/
def natReprAux : Nat → Nat → Str
  | 0, _ => []
  | fuel + 1, n =>
    if n < 10 then [digitChar n]
    else natReprAux fuel (n / 10) ++ [digitChar (n % 10)]

/-- `f"{n}"` : decimal representation. -/
def natRepr (n : Nat) : Str := natReprAux (n + 1) n

/-- The `for i in range(1, 1000)` loop of `_generate_fallback_name`:
candidates `f"{base_name}_{i}"`; fuel counts remaining iterations. -/
def fallbackNumbered (pyLower : Str → Str) (rlow : List Str) (base : Str) :
    Nat → Nat → Option Str
  | 0, _ => none
  | fuel + 1, i =>
    if pyLower (base ++ '_' :: natRepr i) ∉ rlow then some (base ++ '_' :: natRepr i)
    else fallbackNumbered pyLower rlow base fuel (i + 1)

/-- Model of `_generate_fallback_name(base_name, existing_names)`
(`utils/paths.py`, lines 124–151); `timestamp` is the value of
`datetime.now().strftime('%Y%m%d_%H%M%S')` on the last-resort path; a `none`
registry defaults to the empty set. -/
def generateFallbackName (pyLower : Str → Str) (baseName : Str)
    (existingNames : Option (List Str)) (timestamp : Str) : Str :=
  if pyLower baseName ∉ (existingNames.getD []).map pyLower then baseName
  else
    match fallbackNumbered pyLower ((existingNames.getD []).map pyLower)
        baseName 999 1 with
    | some c => c
    | none => baseName ++ '_' :: timestamp

/-- `clean_title` after the second normalisation of `optimize_filename`
(`re.sub(r'\s+', ' ', clean_title).strip()`). -/
def cleanedTitle (symFilter : Char → Bool) (title : Str) : Str :=
  stripWs (subWsRuns ' ' (removeEmoji symFilter title))

/-- Model of `optimize_filename(title, max_length, existing_names)`
(`utils/paths.py`, lines 154–184).  Note the early-return membership test
compares `clean_title.lower()` against the registry **as given** (the
source does not lowercase `existing_names` here, unlike its helpers). -/
def optimizeFilename (symFilter : Char → Bool) (pyLower : Str → Str)
    (progressive : Str → Nat → Option (List Str) → Str) (title : Str)
    (maxLength : Nat) (existingNames : Option (List Str)) (timestamp : Str) : Str :=
  if title = [] then
    generateFallbackName pyLower "untitled".data existingNames timestamp
  else if stripWs (removeEmoji symFilter title) = [] then
    generateFallbackName pyLower "untitled".data existingNames timestamp
  else if (cleanedTitle symFilter title).length ≤ maxLength ∧
      (existingNames = none ∨
        pyLower (cleanedTitle symFilter title) ∉ existingNames.getD []) then
    cleanedTitle symFilter title
  else progressive (cleanedTitle symFilter title) maxLength existingNames

/-- `[<>:"/\\|?*]` : the unsafe character class of `safe_filename`. -/
def unsafeChars : Str := ['<', '>', ':', '"', '/', '\\', '|', '?', '*']

/-- The sanitised name of `safe_filename` before the length check:
unsafe characters replaced by `_`, then whitespace runs replaced by `_`. -/
def sanitizeName (filename : Str) : Str :=
  subWsRuns '_' (filename.map fun c => if c ∈ unsafeChars then '_' else c)

/-- `f"{n:04d}"` for `n < 10000` (the only arguments used: `… % 10000`). -/
def pad4 (n : Nat) : Str :=
  [digitChar (n / 1000 % 10), digitChar (n / 100 % 10),
   digitChar (n / 10 % 10), digitChar (n % 10)]

/-- Model of `safe_filename(filename, max_length)` (`utils/paths.py`, lines
481–509).  `hashFn` models `abs(hash(·))` — Python's builtin salted string
hash composed with `abs`; `max_base_length = max_length - 5` is computed in
`Nat`, whose clamped subtraction agrees with Python's `> 0` test. -/
def safeFilename (hashFn : Str → Nat) (filename : Str) (maxLength : Nat) : Str :=
  if filename = [] then "untitled".data
  else if maxLength < (sanitizeName filename).length then
    if 0 < maxLength - 5 then
      (sanitizeName filename).take (maxLength - 5) ++
        '_' :: pad4 (hashFn filename % 10000)
    else "file".data ++ '_' :: pad4 (hashFn filename % 10000)
  else sanitizeName filename

theorem fallbackNumbered_shape {pyLower : Str → Str} {rlow : List Str}
    {base c : Str} : ∀ (fuel i : Nat),
      fallbackNumbered pyLower rlow base fuel i = some c → ∃ suf, c = base ++ suf := by
  intro fuel
  induction fuel with
  | zero => intro i h; exact absurd h (by rw [fallbackNumbered]; simp)
  | succ fuel ih =>
    intro i h
    rw [fallbackNumbered] at h
    by_cases h1 : pyLower (base ++ '_' :: natRepr i) ∉ rlow
    · rw [if_pos h1] at h
      injection h with h
      exact ⟨'_' :: natRepr i, h.symm⟩
    · rw [if_neg h1] at h
      exact ih (i + 1) h

theorem generateFallbackName_shape (pyLower : Str → Str) (baseName : Str)
    (existingNames : Option (List Str)) (timestamp : Str) :
    ∃ suf, generateFallbackName pyLower baseName existingNames timestamp =
      baseName ++ suf := by
  unfold generateFallbackName
  by_cases h1 : pyLower baseName ∉ (existingNames.getD []).map pyLower
  · rw [if_pos h1]
    exact ⟨[], by simp⟩
  · rw [if_neg h1]
    cases hfb : fallbackNumbered pyLower ((existingNames.getD []).map pyLower)
        baseName 999 1 with
    | some c =>
      dsimp only
      obtain ⟨suf, hsuf⟩ := fallbackNumbered_shape 999 1 hfb
      exact ⟨suf, hsuf⟩
    | none =>
      dsimp only
      exact ⟨'_' :: timestamp, rfl⟩

/-- Claim C8: For every registry (and every choice of the external
`unicodedata`/`str.lower`/timestamp parameters), `optimize_filename` applied
to an empty title, or to a title that the sanitizer `remove_emoji` reduces
to an empty (or whitespace-only) string, returns the
`_generate_fallback_name` result for base `"untitled"`: a stem that starts
with `"untitled"` and in particular is never the empty string (and, the
embedding being total, no exception is raised). -/
theorem C8_empty_title_untitled_fallback (symFilter : Char → Bool)
    (pyLower : Str → Str) (progressive : Str → Nat → Option (List Str) → Str)
    (title : Str) (maxLength : Nat) (existingNames : Option (List Str))
    (timestamp : Str)
    (h : title = [] ∨ stripWs (removeEmoji symFilter title) = []) :
    optimizeFilename symFilter pyLower progressive title maxLength existingNames
        timestamp =
      generateFallbackName pyLower "untitled".data existingNames timestamp ∧
    (∃ suf, generateFallbackName pyLower "untitled".data existingNames timestamp =
      "untitled".data ++ suf) ∧
    generateFallbackName pyLower "untitled".data existingNames timestamp ≠ [] := by
  refine ⟨?_, generateFallbackName_shape _ _ _ _, ?_⟩
  · unfold optimizeFilename
    by_cases ht : title = []
    · rw [if_pos ht]
    · rw [if_neg ht, if_pos (h.resolve_left ht)]
  · obtain ⟨suf, hsuf⟩ := generateFallbackName_shape pyLower "untitled".data
      existingNames timestamp
    rw [hsuf]
    simp

/-- Closed witness for C8 at the all-emoji title `"😀"` (scenario E), with
the So/Sk filter instantiated to the constantly-false function (`"😀"` is
removed by the explicit range table alone), ASCII lowering, an identity
progressive-truncation stub, and an empty registry. -/
theorem C8_empty_title_untitled_fallback_witness :
    optimizeFilename (fun _ => false) asciiLower (fun t _ _ => t) "😀".data 120
        (some []) "ts".data =
      generateFallbackName asciiLower "untitled".data (some []) "ts".data ∧
    (∃ suf, generateFallbackName asciiLower "untitled".data (some []) "ts".data =
      "untitled".data ++ suf) ∧
    generateFallbackName asciiLower "untitled".data (some []) "ts".data ≠ [] :=
  C8_empty_title_untitled_fallback (fun _ => false) asciiLower (fun t _ _ => t)
    "😀".data 120 (some []) "ts".data (Or.inr (by decide))

/-- Claim C3, code bug: Failing input for the case-insensitive uniqueness
invariant: `title = "Hello"`, `max_length = 120`, registry `{"HELLO"}`.
The early return of `optimize_filename` (lines 178–181) compares
`clean_title.lower()` against the registry **without lowercasing the
registry members**, so `"hello" not in {"HELLO"}` passes and the function
returns `"Hello"`, whose lowercase form equals that of the registry member
`"HELLO"` — violating the spec's uniqueness invariant, the function's own
docstring ("ensuring uniqueness"), and the lowercasing its sibling helpers
perform.  The hypothesis instantiates the external So/Sk symbol filter on
the five ASCII letters of the title, where `unicodedata.category` returns
Lu/Ll (so the real filter is `false` there). -/
theorem C3_case_insensitive_registry_bug (symFilter : Char → Bool)
    (progressive : Str → Nat → Option (List Str) → Str) (timestamp : Str)
    (hsf : ∀ c ∈ "Hello".data, symFilter c = false) :
    optimizeFilename symFilter asciiLower progressive "Hello".data 120
        (some ["HELLO".data]) timestamp = "Hello".data ∧
    asciiLower "Hello".data ∈ (["HELLO".data]).map asciiLower := by
  have hH := hsf 'H' (by decide)
  have he := hsf 'e' (by decide)
  have hl := hsf 'l' (by decide)
  have ho := hsf 'o' (by decide)
  have hfilter : "Hello".data.filter (fun c => !(inEmojiRange c || symFilter c)) =
      "Hello".data := by
    show List.filter _ ('H' :: 'e' :: 'l' :: 'l' :: 'o' :: []) = _
    rw [List.filter_cons_of_pos (by rw [hH]; decide),
      List.filter_cons_of_pos (by rw [he]; decide),
      List.filter_cons_of_pos (by rw [hl]; decide),
      List.filter_cons_of_pos (by rw [hl]; decide),
      List.filter_cons_of_pos (by rw [ho]; decide),
      List.filter_nil]
  have hclean : removeEmoji symFilter "Hello".data = "Hello".data := by
    unfold removeEmoji
    rw [if_neg (by decide), hfilter]
    decide
  constructor
  · unfold optimizeFilename
    rw [if_neg (by decide), hclean, if_neg (by decide)]
    unfold cleanedTitle
    rw [hclean]
    rw [if_pos]
    · decide
    · refine ⟨by decide, Or.inr ?_⟩
      decide
  · decide

/-- Closed witness for C3's failing input, with the So/Sk filter
instantiated to the constantly-false function. -/
theorem C3_case_insensitive_registry_bug_witness :
    optimizeFilename (fun _ => false) asciiLower (fun t _ _ => t) "Hello".data 120
        (some ["HELLO".data]) "ts".data = "Hello".data ∧
    asciiLower "Hello".data ∈ (["HELLO".data]).map asciiLower :=
  C3_case_insensitive_registry_bug (fun _ => false) (fun t _ _ => t) "ts".data
    (fun _ _ => rfl)

theorem length_pad4 (n : Nat) : (pad4 n).length = 4 := rfl

set_option maxRecDepth 8000 in
/-- Claim C4, counterexample: 86 copies of `中` (86 characters, 258 UTF-8
bytes): `safe_filename` measures `len(safe_name)` in characters, finds
86 ≤ 255, and returns the input unchanged — its UTF-8 byte length 258
exceeds the claimed 255-byte ceiling. -/
theorem C4_byte_ceiling_counterexample :
    safeFilename (fun _ => 0) (List.replicate 86 '中') 255 =
      List.replicate 86 '中' ∧
    utf8Len (safeFilename (fun _ => 0) (List.replicate 86 '中') 255) = 258 ∧
    ¬ utf8Len (safeFilename (fun _ => 0) (List.replicate 86 '中') 255) ≤ 255 := by
  refine ⟨by decide, by decide, by decide⟩

/-- Claim C4, amended: For every input string (and every choice of the salted
`hash` parameter), `safe_filename(input, 255)` returns a result whose
**character** length — not UTF-8 byte length, which the code never measures —
is at most 255; when the sanitised input exceeds that ceiling the result is
its 250-character truncation plus `_` and a four-digit suffix computed from
the input alone through the hash parameter (deterministic for a fixed
process's hash; Python's builtin `hash` is salted per process, so the spec's
cross-run stability does not hold, but that lies outside a pure embedding). -/
theorem C4_byte_ceiling_amended (hashFn : Str → Nat) (filename : Str) :
    (safeFilename hashFn filename 255).length ≤ 255 ∧
    (255 < (sanitizeName filename).length →
      safeFilename hashFn filename 255 =
        (sanitizeName filename).take 250 ++ '_' :: pad4 (hashFn filename % 10000)) := by
  constructor
  · unfold safeFilename
    split_ifs with h0 h1 h2
    · decide
    · rw [List.length_append, List.length_take, List.length_cons, length_pad4]
      omega
    · exact absurd (by decide) h2
    · omega
  · intro h
    have hne : filename ≠ [] := by
      intro he
      subst he
      revert h
      decide
    unfold safeFilename
    rw [if_neg hne, if_pos (by omega), if_pos (by omega)]

set_option maxRecDepth 8000 in
/-- Closed witness for C4's amended bound at 256 copies of `a`, hash
parameter constantly 7. -/
theorem C4_byte_ceiling_amended_witness :
    (safeFilename (fun _ => 7) (List.replicate 256 'a') 255).length ≤ 255 ∧
      safeFilename (fun _ => 7) (List.replicate 256 'a') 255 =
        (sanitizeName (List.replicate 256 'a')).take 250 ++
          '_' :: pad4 (7 % 10000) :=
  ⟨(C4_byte_ceiling_amended (fun _ => 7) (List.replicate 256 'a')).1,
   (C4_byte_ceiling_amended (fun _ => 7) (List.replicate 256 'a')).2 (by decide)⟩
